import Mathlib

/-
  Verification of the schema-index generator (util/schema-index/src/main.rs).

  The development shallowly embeds the two core algorithms of the tool:
  the history-scanning resolver that assigns an "updated" timestamp to each
  candidate schema file (main.rs lines 91-149), and the glob-to-regex
  translator used for schemastore.org catalog entries (lines 162-226).
  Strings are manipulated through their underlying character lists where
  recursive traversal is needed.

  External collaborators that are out of scope for the source (the glob
  compiler, the SHA-256 digest, the RFC 3339 formatter) are modelled from
  the specification; each such definition carries a doc comment saying so.
-/

set_option autoImplicit false

/-! ## Character-list utilities -/

/-- Drops the pattern `p` from the front of `l`, mirroring Rust's
`str::strip_prefix`: `some` of the remainder on success, `none` otherwise. -/
def chopPre : List Char → List Char → Option (List Char)
  | [], l => some l
  | _ :: _, [] => none
  | p :: ps, c :: cs => if p = c then chopPre ps cs else none

/-- Drops the pattern `p` from the back of `l`, mirroring Rust's
`str::strip_suffix`. -/
def chopSuf (p l : List Char) : Option (List Char) :=
  (chopPre p.reverse l.reverse).map List.reverse

/-- Rust's `str::ends_with` on character lists. -/
def endsWithQ (suf l : List Char) : Bool :=
  (chopSuf suf l).isSome

/-- Fuelled worker for `trimTomlSuffix`; the fuel `l.length` is ample since
every successful chop removes five characters. -/
def trimTomlAux : Nat → List Char → List Char
  | 0, l => l
  | n + 1, l =>
    match chopSuf ".toml".data l with
    | some l2 => trimTomlAux n l2
    | none => l

/-- Rust's `s.trim_end_matches(".toml")` (main.rs line 180): repeatedly
removes the suffix `".toml"` until it no longer occurs. -/
def trimTomlSuffix (l : List Char) : List Char :=
  trimTomlAux l.length l

/-- Removes leading `'/'` characters; worker for `trimEndSlashes`. -/
def trimSlashesRev : List Char → List Char
  | [] => []
  | c :: cs => if c = '/' then trimSlashesRev cs else c :: cs

/-- Rust's `s.trim_end_matches('/')` (main.rs line 68): removes every
trailing `'/'` from the string. -/
def trimEndSlashes (s : String) : String :=
  String.mk (trimSlashesRev s.data.reverse).reverse

/-- Checks that the parentheses of a regular-expression text are balanced,
treating a backslash as escaping the following character.  Balanced
parentheses are a necessary condition for the text to be accepted by a
regular-expression compiler. -/
def regexParensOk : List Char → Nat → Bool
  | [], d => d == 0
  | '\\' :: _ :: cs, d => regexParensOk cs d
  | '(' :: cs, d => regexParensOk cs (d + 1)
  | ')' :: _, 0 => false
  | ')' :: cs, d + 1 => regexParensOk cs d
  | _ :: cs, d => regexParensOk cs d

/-- A regular-expression text with unbalanced group parentheses is rejected
by the downstream regex compiler; `regexBalanced` is that sanity check. -/
def regexBalanced (l : List Char) : Bool :=
  regexParensOk l 0

/-! ## Modelled external collaborators -/

/-- Modelled from the spec: the SHA-256 digest with lowercase hex encoding
(main.rs lines 120-122 and 173-175) is an out-of-scope external primitive
(spec section 1); only that the hash is a pure deterministic function of the
input string matters to the claims, so it is modelled as a cheap
deterministic digest of the character codes. -/
def sha256hex (s : String) : String :=
  toString (s.data.foldl (fun a c => a * 131 + c.toNat) 7)

/-- Modelled from the spec: RFC 3339 formatting of a unix timestamp by the
external time library (main.rs lines 127-130); modelled as an injective
rendering of the timestamp value. -/
def rfc3339 (t : Int) : String :=
  toString t

/-- Modelled from the spec: the per-character translation of the standard
glob compiler (spec section 4.3 step 1), an external collaborator.  `*`
compiles to `.*`, `?` compiles to `.`, plain characters stand for
themselves, regex metacharacters are backslash-escaped, and an unclosed
character class marker makes compilation fail. -/
def globCharRegex (c : Char) : Option (List Char) :=
  if c = '*' then some ['.', '*']
  else if c = '?' then some ['.']
  else if c = '[' then none
  else if c.isAlphanum ∨ c = '/' ∨ c = '-' ∨ c = '_' then some [c]
  else some ['\\', c]

/-- Modelled from the spec: body of the compiled regular expression of a
glob, character by character; `none` when the glob fails to compile
(`Glob::new` returning `Err`, main.rs line 180). -/
def grexBody : List Char → Option (List Char)
  | [] => some []
  | c :: cs =>
    match globCharRegex c, grexBody cs with
    | some r, some rs => some (r ++ rs)
    | _, _ => none

/-- Modelled from the spec: the full compiled regular expression of a glob
as returned by `Glob::regex()`, wrapped in the compiler's leading marker
and anchors `(?-u)^ ... $` which the translator strips again (spec section
4.3 step 1, main.rs lines 204-209). -/
def grexQ (g : List Char) : Option (List Char) :=
  (grexBody g).map fun b => "(?-u)^".data ++ b ++ ['$']

/-! ## Data model -/

/-- Extra metadata block of an index entry (`SchemaExtraInfo` from the
taplo library; modelled from the spec section 6, as the library is not
under src/). -/
structure SchemaExtraInfo where
  authors : List String := []
  patterns : List String := []
deriving DecidableEq

/-- One output index entry (`SchemaMeta` from the taplo library; modelled
from the spec section 6, as the library is not under src/). -/
structure SchemaMeta where
  title : Option String
  description : Option String
  updated : Option String
  url : String
  urlHash : String
  extra : SchemaExtraInfo
deriving DecidableEq

/-- The output index (`SchemaIndex`), an ordered list of entries. -/
structure SchemaIndex where
  schemas : List SchemaMeta := []
deriving DecidableEq

/-- Parsed local schema document (struct `SchemaWithExtraInfo`, main.rs
lines 31-38). -/
structure SchemaWithExtraInfo where
  title : Option String := none
  description : Option String := none
  extra : SchemaExtraInfo := {}
deriving DecidableEq

/-- One entry of the remote catalog (struct `SchemaStoreSchema`, main.rs
lines 14-22). -/
structure SchemaStoreSchema where
  name : Option String
  description : Option String
  url : String
  file_match : List String
deriving DecidableEq

/-- A tree entry visited by the commit tree walk (main.rs lines 105-107):
`path` is the normalized joined path `opt.git.join(dir).join(name).clean()`
and `name` the entry's base name. -/
structure TreeEntry where
  path : String
  name : String
deriving DecidableEq

/-- A commit as the resolver sees it (spec section 3, CommitRecord):
committer timestamp in epoch seconds, the committer UTC offset in minutes,
and the snapshot tree. -/
structure Commit where
  seconds : Int
  offsetMinutes : Int
  tree : List TreeEntry
deriving DecidableEq

/-! ## Glob-to-regex translation (main.rs lines 199-217) -/

/-- The anchor-stripping step (main.rs lines 202-209): strip a trailing
`"$"` and a leading `"(?-u)^"`; either `unwrap_or` falls back to the
original full regex `re`, exactly as in the source. -/
def stripAnchors (r : List Char) : List Char :=
  let s1 := (chopSuf ['$'] r).getD r
  (chopPre "(?-u)^".data s1).getD r

/-- The two-branch translation of one compiled glob regex (main.rs lines
211-215): if the compiled regex contains `'*'` emit the unanchored suffix
pattern, otherwise emit the anchored alternation pattern. -/
def translateRegex (r : List Char) : List Char :=
  let re := stripAnchors r
  if r.contains '*' then re ++ "\\.toml$".data
  else "^(.*(/|\\)".data ++ re ++ "\\.toml|".data ++ re ++ "\\.toml)$".data

/-- Translation of one glob body: compile it (skipped by the caller when
compilation fails, main.rs lines 180-187) and translate the regex. -/
def translateGlob (g : List Char) : Option (List Char) :=
  (grexQ g).map translateRegex

/-- The compiled globs retained for one catalog entry (main.rs lines
177-188): keep the file-match strings ending in `".toml"`, strip that
suffix, compile, and drop the ones that fail to compile. -/
def collectGlobs (ms : List String) : List (List Char) :=
  (ms.filter fun m => endsWithQ ".toml".data m.data).filterMap
    fun m => grexQ (trimTomlSuffix m.data)

/-- The translated pattern list of one catalog entry (main.rs lines
199-217). -/
def schemaPatterns (ms : List String) : List String :=
  (collectGlobs ms).map fun r => String.mk (translateRegex r)

/-- The eligibility test of a catalog entry (main.rs line 169): at least
one file-match glob ends in `".toml"`. -/
def hasTomlMatch (s : SchemaStoreSchema) : Bool :=
  s.file_match.any fun m => endsWithQ ".toml".data m.data

/-- The index entry built for one catalog entry (main.rs lines 190-220). -/
def storeEntry (now : String) (s : SchemaStoreSchema) : SchemaMeta :=
  { title := s.name
    description := s.description
    updated := some now
    url := s.url
    urlHash := sha256hex s.url
    extra :=
      { authors := ["automatically included from https://schemastore.org"]
        patterns := schemaPatterns s.file_match } }

/-- The catalog loop of `fetch_schema_store` (main.rs lines 168-223):
entries without a `".toml"` file match are skipped, every other entry
contributes exactly one index entry, in catalog order. -/
def storeLoop (now : String) : List SchemaStoreSchema → List SchemaMeta
  | [] => []
  | s :: ss =>
    if hasTomlMatch s then storeEntry now s :: storeLoop now ss
    else storeLoop now ss

/-- The body of `fetch_schema_store` (main.rs lines 162-226): the network
fetch and parse happen before any entry is pushed, so a failure leaves the
index untouched and is reported to the caller as an error. -/
def fetch_schema_store (fetched : Except String (List SchemaStoreSchema))
    (now : String) (index : List SchemaMeta) : Except String (List SchemaMeta) :=
  match fetched with
  | .error e => .error e
  | .ok cat => .ok (index ++ storeLoop now cat)

/-! ## Local history resolution (main.rs lines 91-149) -/

/-- The timestamp the tool records for a commit (main.rs line 100):
`time.seconds() + (time.offset_minutes() * 60)`. -/
def commitTimeUnix (c : Commit) : Int :=
  c.seconds + c.offsetMinutes * 60

/-- The index entry built for one resolved local file (main.rs lines
109-134): URL is the configured base joined with the entry's base name,
the hash is the digest of that URL, and `updated` is the formatted commit
timestamp. -/
def mkLocalMeta (url : String) (s : SchemaWithExtraInfo) (t : Int)
    (name : String) : SchemaMeta :=
  let u := url ++ "/" ++ name
  { title := s.title
    description := s.description
    updated := some (rfc3339 t)
    url := u
    urlHash := sha256hex u
    extra := s.extra }

/-- One tree-walk callback step (main.rs lines 106-136): when the entry's
normalized path is a still-pending candidate it is removed from the pending
set, its document is parsed (a parse failure panics, modelled as an error),
and the entry is appended to the index. -/
def processEntry (url : String) (parse : String → Option SchemaWithExtraInfo)
    (t : Int) (st : List String × List SchemaMeta) (e : TreeEntry) :
    Except String (List String × List SchemaMeta) :=
  if st.1.contains e.path then
    match parse e.path with
    | none => .error ("invalid schema: " ++ e.path)
    | some s => .ok (st.1.erase e.path, st.2 ++ [mkLocalMeta url s t e.name])
  else .ok st

/-- The tree walk over one commit (main.rs lines 102-143): entries are
visited in order; after each entry, the walk aborts early once the pending
set is empty. -/
def walkTreeM (url : String) (parse : String → Option SchemaWithExtraInfo)
    (t : Int) : List TreeEntry → List String × List SchemaMeta →
    Except String (List String × List SchemaMeta)
  | [], st => .ok st
  | e :: es, st =>
    match processEntry url parse t st e with
    | .error msg => .error msg
    | .ok st2 => if st2.1.isEmpty then .ok st2 else walkTreeM url parse t es st2

/-- The revwalk loop (main.rs lines 91-145): commits are processed in the
order produced by the time-sorted revision walk, threading the pending
candidate set and the index. -/
def processCommits (url : String) (parse : String → Option SchemaWithExtraInfo) :
    List Commit → List String × List SchemaMeta →
    Except String (List String × List SchemaMeta)
  | [], st => .ok st
  | c :: cs, st =>
    match walkTreeM url parse (commitTimeUnix c) c.tree st with
    | .error msg => .error msg
    | .ok st2 => processCommits url parse cs st2

/-- The run configuration and ambient inputs of `main`: the base URL
option, the candidate files discovered by the directory walk, the commits
in revwalk order, the (already abstracted) JSON parser for local schema
documents, the schema-store flag, the result of the catalog fetch, and the
run-start wall-clock time. -/
structure Env where
  baseUrl : String
  candidates : List String
  commits : List Commit
  parse : String → Option SchemaWithExtraInfo
  schemaStore : Bool
  catalogFetch : Except String (List SchemaStoreSchema)
  now : String

/-- The body of `main` (main.rs lines 65-160).  A `.error` result models
the process exiting with a non-zero status before the output file is
created; `.ok` carries the index that is serialized to the output file. -/
def runMain (env : Env) : Except String SchemaIndex :=
  let url := trimEndSlashes env.baseUrl
  match processCommits url env.parse env.commits (env.candidates, []) with
  | .error e => .error e
  | .ok st =>
    if st.1.isEmpty then
      let index := st.2
      let index2 :=
        if env.schemaStore then
          match fetch_schema_store env.catalogFetch env.now index with
          | .ok i2 => i2
          | .error _ => index
        else index
      .ok ⟨index2⟩
    else .error "all files must be committed"

/-! ## Pure view of the resolver, for the statements of the claims -/

/-- Whether a commit tree contains an entry with the given normalized
path. -/
def treeHasPath (tr : List TreeEntry) (p : String) : Bool :=
  tr.any fun e => e.path == p

/-- Pure view of the tree walk: final pending set and the matched
`(path, name)` pairs in visit order.  The early abort of `walkTreeM` is
dropped here: once the pending set is empty no later entry can match, so
the result is the same either way (the link lemma below proves it). -/
def walkPure : List TreeEntry → List String → List String × List (String × String)
  | [], pending => (pending, [])
  | e :: es, pending =>
    if pending.contains e.path then
      ((walkPure es (pending.erase e.path)).1,
        (e.path, e.name) :: (walkPure es (pending.erase e.path)).2)
    else walkPure es pending

/-- Pure view of the revwalk loop: final pending set and the matched
`(path, name, recorded unix time)` triples in resolution order. -/
def resolvePure : List Commit → List String → List String × List (String × String × Int)
  | [], pending => (pending, [])
  | c :: cs, pending =>
    let w := walkPure c.tree pending
    let r := resolvePure cs w.1
    (r.1, w.2.map (fun m => (m.1, m.2, commitTimeUnix c)) ++ r.2)

/-- The index entry corresponding to one resolved triple. -/
def buildMetaT (url : String) (parse : String → Option SchemaWithExtraInfo)
    (x : String × String × Int) : SchemaMeta :=
  mkLocalMeta url ((parse x.1).getD {}) x.2.2 x.2.1

/-! ## Concrete inputs used by the witnesses and counterexamples -/

/-- A parser that accepts every document with empty metadata. -/
def wParse : String → Option SchemaWithExtraInfo :=
  fun _ => some {}

/-- Two commits, newest first, both containing the same file. -/
def wCommits : List Commit :=
  [⟨200, 0, [⟨"d/a.json", "a.json"⟩]⟩, ⟨100, 0, [⟨"d/a.json", "a.json"⟩]⟩]

/-- The single candidate file of the witness repository. -/
def wPending : List String :=
  ["d/a.json"]

/-- A witness environment whose candidate is committed and whose catalog
fetch fails. -/
def wEnvStore : Env :=
  { baseUrl := "https://u"
    candidates := wPending
    commits := wCommits
    parse := wParse
    schemaStore := true
    catalogFetch := .error "network unreachable"
    now := "t0" }

/-- A witness environment without catalog integration. -/
def wEnvPlain : Env :=
  { wEnvStore with schemaStore := false }

/-- An environment whose candidate file is never found in any commit. -/
def wEnvUncommitted : Env :=
  { wEnvStore with commits := [], schemaStore := false }

/-- An environment with two candidate files of equal base name in
different directories, both present in one commit. -/
def envC6 : Env :=
  { baseUrl := "https://u"
    candidates := ["a/x.json", "b/x.json"]
    commits := [⟨300, 0, [⟨"a/x.json", "x.json"⟩, ⟨"b/x.json", "x.json"⟩]⟩]
    parse := fun p => some ⟨some p, none, {}⟩
    schemaStore := false
    catalogFetch := .error "disabled"
    now := "t0" }

/-- A catalog entry whose only file match ends in `".toml"` but whose glob
fails to compile (unclosed character class). -/
def wBadGlobSchema : SchemaStoreSchema :=
  ⟨some "bad", none, "https://example.com/bad.json", ["[.toml"]⟩

/-! ## Helper lemmas about the pure resolver view -/

theorem walkPure_nil_pending (es : List TreeEntry) : walkPure es [] = ([], []) := by
  induction es with
  | nil => simp [walkPure]
  | cons e es ih => simp [walkPure, ih]

theorem walkPure_pending_sublist (es : List TreeEntry) :
    ∀ pending : List String, List.Sublist (walkPure es pending).1 pending := by
  induction es with
  | nil => intro pending; simp [walkPure]
  | cons e es ih =>
    intro pending
    by_cases hc : e.path ∈ pending
    · simp only [walkPure]
      rw [if_pos (by simpa using hc)]
      exact (ih _).trans (List.erase_sublist _ _)
    · simp only [walkPure]
      rw [if_neg (by simpa using hc)]
      exact ih pending

theorem walkPure_still_pending_not_in_tree (es : List TreeEntry) :
    ∀ (pending : List String) (p : String), pending.Nodup →
      p ∈ (walkPure es pending).1 → treeHasPath es p = false := by
  induction es with
  | nil =>
    intro pending p _ _
    simp [treeHasPath]
  | cons e es ih =>
    intro pending p hnd hp
    by_cases hc : e.path ∈ pending
    · rw [walkPure, if_pos (by simpa using hc)] at hp
      have hp2 : p ∈ pending.erase e.path :=
        (walkPure_pending_sublist es _).subset hp
      have hne : e.path ≠ p := by
        intro hEq
        exact (hnd.mem_erase_iff.mp (hEq ▸ hp2)).1 rfl
      have htail := ih _ p (hnd.erase _) hp
      simp [treeHasPath] at htail ⊢
      exact ⟨fun h => absurd h hne, htail⟩
    · rw [walkPure, if_neg (by simpa using hc)] at hp
      have hpmem : p ∈ pending := (walkPure_pending_sublist es pending).subset hp
      have hne : e.path ≠ p := by
        intro hEq
        exact hc (hEq ▸ hpmem)
      have htail := ih pending p hnd hp
      simp [treeHasPath] at htail ⊢
      exact ⟨fun h => absurd h hne, htail⟩

theorem walkPure_match_mem (es : List TreeEntry) :
    ∀ (pending : List String) (p n : String), (p, n) ∈ (walkPure es pending).2 →
      p ∈ pending ∧ treeHasPath es p = true := by
  induction es with
  | nil =>
    intro pending p n h
    simp [walkPure] at h
  | cons e es ih =>
    intro pending p n h
    by_cases hc : e.path ∈ pending
    · rw [walkPure, if_pos (by simpa using hc)] at h
      simp at h
      rcases h with ⟨hp, _⟩ | h
      · subst hp
        exact ⟨hc, by simp [treeHasPath]⟩
      · have := ih _ p n h
        refine ⟨(List.erase_sublist _ _).subset this.1, ?_⟩
        simp [treeHasPath] at this ⊢
        exact Or.inr this.2
    · rw [walkPure, if_neg (by simpa using hc)] at h
      have := ih pending p n h
      refine ⟨this.1, ?_⟩
      simp [treeHasPath] at this ⊢
      exact Or.inr this.2

theorem resolvePure_match_pending (cs : List Commit) :
    ∀ (pending : List String) (p n : String) (t : Int),
      (p, n, t) ∈ (resolvePure cs pending).2 → p ∈ pending := by
  induction cs with
  | nil =>
    intro pending p n t h
    simp [resolvePure] at h
  | cons c cs ih =>
    intro pending p n t h
    simp only [resolvePure, List.mem_append, List.mem_map] at h
    rcases h with ⟨m, hm, hEq⟩ | h
    · have hm2 : (p, n) ∈ (walkPure c.tree pending).2 := by
        obtain ⟨m1, m2⟩ := m
        cases hEq
        exact hm
      exact (walkPure_match_mem c.tree pending p n hm2).1
    · exact (walkPure_pending_sublist c.tree pending).subset (ih _ p n t h)

theorem resolvePure_match_commit (cs : List Commit) :
    ∀ (pending : List String) (p n : String) (t : Int),
      (p, n, t) ∈ (resolvePure cs pending).2 →
        ∃ c, c ∈ cs ∧ treeHasPath c.tree p = true ∧ t = commitTimeUnix c := by
  induction cs with
  | nil =>
    intro pending p n t h
    simp [resolvePure] at h
  | cons c cs ih =>
    intro pending p n t h
    simp only [resolvePure, List.mem_append, List.mem_map] at h
    rcases h with ⟨m, hm, hEq⟩ | h
    · obtain ⟨m1, m2⟩ := m
      cases hEq
      exact ⟨c, by simp, (walkPure_match_mem c.tree pending m1 m2 hm).2, rfl⟩
    · obtain ⟨c2, hc2, hTree, hT⟩ := ih _ p n t h
      exact ⟨c2, by simp [hc2], hTree, hT⟩

theorem walkTreeM_link (url : String) (parse : String → Option SchemaWithExtraInfo)
    (t : Int) (hparse : ∀ q, (parse q).isSome = true) :
    ∀ (es : List TreeEntry) (pending : List String) (acc : List SchemaMeta),
      walkTreeM url parse t es (pending, acc) =
        .ok ((walkPure es pending).1,
          acc ++ (walkPure es pending).2.map
            (fun m => mkLocalMeta url ((parse m.1).getD {}) t m.2)) := by
  intro es
  induction es with
  | nil =>
    intro pending acc
    simp [walkTreeM, walkPure]
  | cons e es ih =>
    intro pending acc
    by_cases hc : e.path ∈ pending
    · obtain ⟨s, hs⟩ := Option.isSome_iff_exists.mp (hparse e.path)
      by_cases he : pending.erase e.path = []
      · rw [walkPure, if_pos (by simpa using hc)]
        simp [walkTreeM, processEntry, hc, hs, he, walkPure_nil_pending]
      · rw [walkPure, if_pos (by simpa using hc)]
        simp [walkTreeM, processEntry, hc, hs, he, ih]
    · by_cases he : pending = []
      · subst he
        simp [walkTreeM, processEntry, walkPure, walkPure_nil_pending]
      · rw [walkPure, if_neg (by simpa using hc)]
        simp [walkTreeM, processEntry, hc, he, ih]

theorem processCommits_link (url : String) (parse : String → Option SchemaWithExtraInfo)
    (hparse : ∀ q, (parse q).isSome = true) :
    ∀ (cs : List Commit) (pending : List String) (acc : List SchemaMeta),
      processCommits url parse cs (pending, acc) =
        .ok ((resolvePure cs pending).1,
          acc ++ (resolvePure cs pending).2.map (buildMetaT url parse)) := by
  intro cs
  induction cs with
  | nil =>
    intro pending acc
    simp [processCommits, resolvePure]
  | cons c cs ih =>
    intro pending acc
    simp only [processCommits, resolvePure,
      walkTreeM_link url parse (commitTimeUnix c) hparse c.tree pending acc, ih]
    simp [List.map_map, Function.comp, buildMetaT]

theorem walkTreeM_updated (url : String) (parse : String → Option SchemaWithExtraInfo)
    (t : Int) : ∀ (es : List TreeEntry) (st st2 : List String × List SchemaMeta),
      walkTreeM url parse t es st = .ok st2 →
      (∀ m ∈ st.2, m.updated.isSome = true) → ∀ m ∈ st2.2, m.updated.isSome = true := by
  intro es
  induction es with
  | nil =>
    intro st st2 h hst
    simp [walkTreeM] at h
    subst h
    exact hst
  | cons e es ih =>
    intro st st2 h hst
    by_cases hc : e.path ∈ st.1
    · cases hp : parse e.path with
      | none => simp [walkTreeM, processEntry, hc, hp] at h
      | some s =>
        simp only [walkTreeM, processEntry, hp] at h
        rw [if_pos (by simpa using hc)] at h
        have hst2 : ∀ m ∈ st.2 ++ [mkLocalMeta url s t e.name], m.updated.isSome = true := by
          intro m hm
          rcases List.mem_append.mp hm with hm | hm
          · exact hst m hm
          · simp at hm
            subst hm
            simp [mkLocalMeta]
        by_cases he : (st.1.erase e.path).isEmpty = true
        · simp [he] at h
          subst h
          exact hst2
        · simp [he] at h
          exact ih _ _ h hst2
    · simp only [walkTreeM, processEntry] at h
      rw [if_neg (by simpa using hc)] at h
      by_cases he : st.1.isEmpty = true
      · simp [he] at h
        subst h
        exact hst
      · simp [he] at h
        exact ih _ _ h hst

theorem processCommits_updated (url : String) (parse : String → Option SchemaWithExtraInfo) :
    ∀ (cs : List Commit) (st st2 : List String × List SchemaMeta),
      processCommits url parse cs st = .ok st2 →
      (∀ m ∈ st.2, m.updated.isSome = true) → ∀ m ∈ st2.2, m.updated.isSome = true := by
  intro cs
  induction cs with
  | nil =>
    intro st st2 h hst
    simp [processCommits] at h
    subst h
    exact hst
  | cons c cs ih =>
    intro st st2 h hst
    cases hw : walkTreeM url parse (commitTimeUnix c) c.tree st with
    | error msg => simp [processCommits, hw] at h
    | ok stw =>
      simp only [processCommits, hw] at h
      exact ih _ _ h (walkTreeM_updated url parse (commitTimeUnix c) c.tree st stw hw hst)

theorem storeLoop_updated (now : String) :
    ∀ (cat : List SchemaStoreSchema) (m : SchemaMeta), m ∈ storeLoop now cat →
      m.updated.isSome = true := by
  intro cat
  induction cat with
  | nil =>
    intro m hm
    simp [storeLoop] at hm
  | cons s ss ih =>
    intro m hm
    by_cases h : hasTomlMatch s = true
    · simp only [storeLoop, h, if_true] at hm
      rcases List.mem_cons.mp hm with hm | hm
      · subst hm
        simp [storeEntry]
      · exact ih m hm
    · simp only [storeLoop, h, if_false] at hm
      exact ih m hm

theorem grexBody_star : ∀ (g b : List Char), grexBody g = some b →
    '*' ∈ g → '*' ∈ b := by
  intro g
  induction g with
  | nil =>
    intro b h hs
    simp at hs
  | cons c cs ih =>
    intro b h hs
    cases hgc : globCharRegex c with
    | none => simp [grexBody, hgc] at h
    | some r =>
      cases hgb : grexBody cs with
      | none => simp [grexBody, hgc, hgb] at h
      | some rs =>
        simp only [grexBody, hgc, hgb] at h
        have hb : b = r ++ rs := by
          cases h
          rfl
        subst hb
        rcases List.mem_cons.mp hs with hs | hs
        · have hr : r = ['.', '*'] := by
            rw [← hs] at hgc
            simpa [globCharRegex] using hgc.symm
          subst hr
          simp
        · exact List.mem_append.mpr (Or.inr (ih rs hgb hs))

theorem trimSlashesRev_replicate :
    ∀ (k : Nat) (l : List Char), trimSlashesRev (List.replicate k '/' ++ l) = trimSlashesRev l := by
  intro k
  induction k with
  | zero => intro l; simp
  | succ k ih =>
    intro l
    simp [List.replicate_succ, trimSlashesRev, ih]

theorem trimEndSlashes_append_slashes (s : String) (k : Nat) :
    trimEndSlashes (s ++ String.mk (List.replicate k '/')) = trimEndSlashes s := by
  unfold trimEndSlashes
  rw [String.data_append]
  show String.mk (trimSlashesRev ((s.data ++ List.replicate k '/').reverse)).reverse = _
  rw [List.reverse_append, List.reverse_replicate, trimSlashesRev_replicate]

theorem localUrl_inj (u : String) (n1 n2 : String)
    (h : u ++ "/" ++ n1 = u ++ "/" ++ n2) : n1 = n2 := by
  have h2 := congrArg String.data h
  simp only [String.data_append] at h2
  exact String.ext (List.append_cancel_left h2)

theorem storeLoop_eq_filter_map (now : String) :
    ∀ cat : List SchemaStoreSchema,
      storeLoop now cat = (cat.filter hasTomlMatch).map (storeEntry now) := by
  intro cat
  induction cat with
  | nil => simp [storeLoop]
  | cons s ss ih =>
    by_cases h : hasTomlMatch s = true
    · simp [storeLoop, List.filter_cons, h, ih]
    · simp [storeLoop, List.filter_cons, h, ih]

theorem collectGlobs_nil_of_all_fail :
    ∀ ms : List String,
      (∀ m ∈ ms, endsWithQ ".toml".data m.data = true →
        grexQ (trimTomlSuffix m.data) = none) →
      collectGlobs ms = [] := by
  intro ms
  induction ms with
  | nil => intro _; simp [collectGlobs]
  | cons m ms ih =>
    intro h
    have htail : collectGlobs ms = [] := by
      apply ih
      intro q hq hqe
      exact h q (List.mem_cons_of_mem m hq) hqe
    by_cases hm : endsWithQ ".toml".data m.data = true
    · simp only [collectGlobs, List.filter_cons, hm, if_true, List.filterMap_cons,
        h m (List.mem_cons_self m ms) hm]
      simpa [collectGlobs] using htail
    · simp only [collectGlobs, List.filter_cons, hm, if_false]
      simpa [collectGlobs] using htail

theorem resolvePure_newest :
    ∀ (cs : List Commit) (pending : List String),
      List.Sorted (fun a b => b.seconds ≤ a.seconds) cs → pending.Nodup →
      ∀ (p n : String) (t : Int), (p, n, t) ∈ (resolvePure cs pending).2 →
      ∃ c, c ∈ cs ∧ treeHasPath c.tree p = true ∧ t = commitTimeUnix c ∧
        ∀ c2, c2 ∈ cs → treeHasPath c2.tree p = true → c2.seconds ≤ c.seconds := by
  intro cs
  induction cs with
  | nil =>
    intro pending _ _ p n t h
    simp [resolvePure] at h
  | cons c cs ih =>
    intro pending hsort hnd p n t h
    rw [List.sorted_cons] at hsort
    simp only [resolvePure, List.mem_append, List.mem_map] at h
    rcases h with ⟨m, hm, hEq⟩ | h
    · obtain ⟨m1, m2⟩ := m
      cases hEq
      have hw := walkPure_match_mem c.tree pending m1 m2 hm
      refine ⟨c, by simp, hw.2, rfl, ?_⟩
      intro c2 hc2 _
      rcases List.mem_cons.mp hc2 with hc2 | hc2
      · subst hc2; exact le_refl _
      · exact hsort.1 c2 hc2
    · have hnd2 : (walkPure c.tree pending).1.Nodup :=
        hnd.sublist (walkPure_pending_sublist c.tree pending)
      obtain ⟨c0, hc0, hTree, hT, hMax⟩ := ih _ hsort.2 hnd2 p n t h
      refine ⟨c0, List.mem_cons_of_mem c hc0, hTree, hT, ?_⟩
      intro c2 hc2 hc2tree
      rcases List.mem_cons.mp hc2 with hc2 | hc2
      · rw [hc2] at hc2tree
        have hp : p ∈ (walkPure c.tree pending).1 :=
          resolvePure_match_pending cs _ p n t h
        have hfalse := walkPure_still_pending_not_in_tree c.tree pending p hnd hp
        rw [hfalse] at hc2tree
        cases hc2tree
      · exact hMax c2 hc2 hc2tree

/-! ## The claims -/

/-- C1: for every candidate file that appears in at least one commit
reachable from head, the resolver walks commits ordered by commit time most
recent first and locks the file in on first sighting, so the recorded
updated timestamp is the commit time of the newest commit whose tree
contains the file's normalized path (not the commit that introduced it and
not the commit that last changed its content): the revwalk loop produces
exactly the entries of the pure resolution, and each resolved triple's
recorded time is the commit time of a commit containing the path that is
newest among all commits containing it. -/
theorem c1_resolver_first_sighting_newest (url : String)
    (parse : String → Option SchemaWithExtraInfo) (commits : List Commit)
    (pending : List String)
    (hsorted : List.Sorted (fun a b => b.seconds ≤ a.seconds) commits)
    (hnodup : pending.Nodup)
    (hparse : ∀ q, (parse q).isSome = true) :
    processCommits url parse commits (pending, []) =
      .ok ((resolvePure commits pending).1,
        (resolvePure commits pending).2.map (buildMetaT url parse)) ∧
    ∀ (p n : String) (t : Int), (p, n, t) ∈ (resolvePure commits pending).2 →
      ∃ c, c ∈ commits ∧ treeHasPath c.tree p = true ∧ t = commitTimeUnix c ∧
        ∀ c2, c2 ∈ commits → treeHasPath c2.tree p = true →
          c2.seconds ≤ c.seconds := by
  constructor
  · simpa using processCommits_link url parse hparse commits pending []
  · exact resolvePure_newest commits pending hsorted hnodup

/-- Witness for C1 at a concrete two-commit repository in which the same
file is present in both commits. -/
theorem c1_witness :
    processCommits "u" wParse wCommits (wPending, []) =
      .ok ((resolvePure wCommits wPending).1,
        (resolvePure wCommits wPending).2.map (buildMetaT "u" wParse)) ∧
    ∀ (p n : String) (t : Int), (p, n, t) ∈ (resolvePure wCommits wPending).2 →
      ∃ c, c ∈ wCommits ∧ treeHasPath c.tree p = true ∧ t = commitTimeUnix c ∧
        ∀ c2, c2 ∈ wCommits → treeHasPath c2.tree p = true →
          c2.seconds ≤ c.seconds :=
  c1_resolver_first_sighting_newest "u" wParse wCommits wPending (by decide) (by decide)
    (fun _ => rfl)

/-- C2 (code bug): for the wildcard-free catalog glob `foo/bar` the
translator emits exactly the string
`^(.*(/|\)foo/bar\.toml|foo/bar\.toml)$`, in which the backslash escapes
the closing parenthesis, leaving the group opened after `^` unclosed; the
emitted text therefore has unbalanced group parentheses and is not a valid
regular expression, so it cannot match `foo/bar.toml` as the claim
requires.  (The intended separator alternation `(/|\\)` lost a backslash;
compare spec section 4.3 step 3.) -/
theorem c2_literal_branch_emits_invalid_regex :
    translateGlob "foo/bar".data =
      some ("^(.*(/|\\)foo/bar\\.toml|foo/bar\\.toml)$".data) ∧
    regexBalanced ("^(.*(/|\\)foo/bar\\.toml|foo/bar\\.toml)$".data) = false := by
  exact ⟨rfl, rfl⟩

/-- C3 counterexample: the glob `foo?` contains the wildcard `?`, yet the
translator does not emit the unanchored suffix pattern `foo.\.toml$`; it
takes the literal branch, because the branch tests the compiled regex for
the character `*` and `?` compiles to `.`. -/
theorem c3_counterexample :
    ('?' ∈ "foo?".data) ∧
    translateGlob "foo?".data =
      some ("^(.*(/|\\)foo.\\.toml|foo.\\.toml)$".data) ∧
    translateGlob "foo?".data ≠ some ("foo.\\.toml$".data) := by
  refine ⟨by decide, rfl, by decide⟩

/-- C3 (amended): the wildcard-vs-literal branch is decided by whether the
glob's compiled regular expression contains the character `*`, not by the
presence of a wildcard in the original glob string; in particular every
glob containing `*` compiles to a regex containing `*` and is translated
to the unanchored suffix pattern `<stripped body>\.toml$`. -/
theorem c3_star_branch (g r : List Char) (hr : grexQ g = some r)
    (hg : '*' ∈ g) :
    translateGlob g = some (stripAnchors r ++ "\\.toml$".data) := by
  have hb : ∃ b, grexBody g = some b ∧ r = "(?-u)^".data ++ b ++ ['$'] := by
    unfold grexQ at hr
    cases hgb : grexBody g with
    | none => rw [hgb] at hr; simp at hr
    | some b =>
      rw [hgb] at hr
      simp at hr
      exact ⟨b, rfl, hr.symm⟩
  obtain ⟨b, hgb, hrEq⟩ := hb
  have hstar : '*' ∈ b := grexBody_star g b hgb hg
  have hcont : r.contains '*' = true := by
    rw [hrEq]
    simp
    exact hstar
  simp [translateGlob, hr, translateRegex, hcont]
  intro hno
  exact absurd (by simpa using hcont) hno

/-- Witness for C3 (amended) at the concrete glob `a*`. -/
theorem c3_witness :
    translateGlob "a*".data =
      some (stripAnchors "(?-u)^a.*$".data ++ "\\.toml$".data) :=
  c3_star_branch "a*".data "(?-u)^a.*$".data (by decide) (by decide)

/-- C4 counterexample: two commits denoting the same absolute instant
(equal epoch seconds) but with different committer UTC offsets are recorded
with different timestamps, and produce different `updated` strings; the
recorded value is not timezone-normalized. -/
theorem c4_counterexample :
    (Commit.mk 0 60 []).seconds = (Commit.mk 0 0 []).seconds ∧
    commitTimeUnix (Commit.mk 0 60 []) ≠ commitTimeUnix (Commit.mk 0 0 []) ∧
    (mkLocalMeta "u" {} (commitTimeUnix (Commit.mk 0 60 [])) "n").updated ≠
      (mkLocalMeta "u" {} (commitTimeUnix (Commit.mk 0 0 [])) "n").updated := by
  refine ⟨rfl, by decide, by decide⟩

/-- C4 (amended): the timestamp written to `updated` is the resolving
commit's epoch seconds plus the committer UTC offset in seconds (the
committer's local wall-clock time), rendered through the RFC 3339
formatter; it therefore depends on the committer's UTC offset, not only on
the absolute instant. -/
theorem c4_updated_is_offset_shifted (url : String)
    (parse : String → Option SchemaWithExtraInfo) (commits : List Commit)
    (pending : List String) (st : List String × List SchemaMeta)
    (hparse : ∀ q, (parse q).isSome = true)
    (hok : processCommits url parse commits (pending, []) = .ok st)
    (m : SchemaMeta) (hm : m ∈ st.2) :
    ∃ c, c ∈ commits ∧
      m.updated = some (rfc3339 (c.seconds + c.offsetMinutes * 60)) := by
  have hlink := processCommits_link url parse hparse commits pending []
  rw [hok] at hlink
  have hst : st = ((resolvePure commits pending).1,
      [] ++ (resolvePure commits pending).2.map (buildMetaT url parse)) := by
    cases hlink
    rfl
  rw [hst] at hm
  simp only [List.nil_append, List.mem_map] at hm
  obtain ⟨x, hx, hEq⟩ := hm
  obtain ⟨p, n, t⟩ := x
  obtain ⟨c, hc, _, hT⟩ := resolvePure_match_commit commits pending p n t hx
  refine ⟨c, hc, ?_⟩
  rw [← hEq]
  simp [buildMetaT, mkLocalMeta, hT, commitTimeUnix]

/-- Witness for C4 (amended) at a concrete commit with offset zero. -/
theorem c4_witness :
    ∃ c, c ∈ wCommits ∧
      (mkLocalMeta "u" {} 200 "a.json").updated =
        some (rfc3339 (c.seconds + c.offsetMinutes * 60)) :=
  c4_updated_is_offset_shifted "u" wParse wCommits wPending
    ([], [mkLocalMeta "u" {} 200 "a.json"]) (fun _ => rfl) rfl
    (mkLocalMeta "u" {} 200 "a.json") (by simp)

/-- C5: if after all reachable commits are exhausted any candidate file
remains pending, `main` returns the integrity error
`all files must be committed` before the output file is written: the run
is an error and no index is produced. -/
theorem c5_unresolved_candidates_fail (env : Env)
    (st : List String × List SchemaMeta)
    (hok : processCommits (trimEndSlashes env.baseUrl) env.parse env.commits
      (env.candidates, []) = .ok st)
    (hne : st.1 ≠ []) :
    runMain env = .error "all files must be committed" := by
  simp only [runMain]
  rw [hok]
  simp [hne]

/-- Witness for C5: a repository with no commits and one candidate file. -/
theorem c5_witness :
    runMain wEnvUncommitted = .error "all files must be committed" :=
  c5_unresolved_candidates_fail wEnvUncommitted (wPending, []) rfl (by decide)

/-- C6 counterexample: two candidate files with the same base name in
different directories, both present in one commit, produce two distinct
entries (their titles differ) carrying the same URL, so URL is not unique
per entry. -/
theorem c6_counterexample :
    (runMain envC6).map (fun idx => idx.schemas.map SchemaMeta.url) =
      .ok ["https://u/x.json", "https://u/x.json"] ∧
    (runMain envC6).map (fun idx => idx.schemas.map SchemaMeta.title) =
      .ok [some "a/x.json", some "b/x.json"] := by
  exact ⟨rfl, rfl⟩

/-- C6 (amended): within the locally resolved part of the index, entry
URLs are pairwise distinct provided the resolved files' base names are
pairwise distinct; the code itself enforces no URL uniqueness. -/
theorem c6_urls_distinct_if_names_distinct (url : String)
    (parse : String → Option SchemaWithExtraInfo) (commits : List Commit)
    (pending : List String) (st : List String × List SchemaMeta)
    (hparse : ∀ q, (parse q).isSome = true)
    (hok : processCommits url parse commits (pending, []) = .ok st)
    (hnames : ((resolvePure commits pending).2.map
      (fun x => x.2.1)).Nodup) :
    (st.2.map SchemaMeta.url).Nodup := by
  have hlink := processCommits_link url parse hparse commits pending []
  rw [hok] at hlink
  have hst : st = ((resolvePure commits pending).1,
      [] ++ (resolvePure commits pending).2.map (buildMetaT url parse)) := by
    cases hlink
    rfl
  rw [hst]
  simp only [List.nil_append, List.map_map]
  have hfun : (SchemaMeta.url ∘ buildMetaT url parse) =
      (fun n => url ++ "/" ++ n) ∘ (fun x : String × String × Int => x.2.1) := by
    funext x
    rfl
  rw [hfun, ← List.map_map]
  exact List.Nodup.map (fun a b hab => localUrl_inj url a b hab) hnames

/-- Witness for C6 (amended): one resolved file gives a duplicate-free URL
list. -/
theorem c6_witness :
    (([mkLocalMeta "u" {} 200 "a.json"] : List SchemaMeta).map
      SchemaMeta.url).Nodup :=
  c6_urls_distinct_if_names_distinct "u" wParse wCommits wPending
    ([], [mkLocalMeta "u" {} 200 "a.json"]) (fun _ => rfl) rfl (by decide)

/-- C7: the catalog loop produces exactly one index entry per catalog
entry having at least one file-match glob ending in `.toml` (entries
without one contribute nothing), and an eligible entry all of whose
retained globs fail to compile is still produced, with an empty pattern
list. -/
theorem c7_catalog_entry_shape (now : String) (cat : List SchemaStoreSchema) :
    storeLoop now cat = (cat.filter hasTomlMatch).map (storeEntry now) ∧
    ∀ s : SchemaStoreSchema,
      (∀ m ∈ s.file_match, endsWithQ ".toml".data m.data = true →
        grexQ (trimTomlSuffix m.data) = none) →
      (storeEntry now s).extra.patterns = [] := by
  refine ⟨storeLoop_eq_filter_map now cat, ?_⟩
  intro s hall
  simp [storeEntry, schemaPatterns, collectGlobs_nil_of_all_fail s.file_match hall]

/-- Witness for C7: a catalog entry whose single `.toml` glob fails to
compile still yields exactly one entry, with no patterns. -/
theorem c7_witness :
    storeLoop "t0" [wBadGlobSchema] = [storeEntry "t0" wBadGlobSchema] ∧
    (storeEntry "t0" wBadGlobSchema).extra.patterns = [] :=
  ⟨by
    rw [(c7_catalog_entry_shape "t0" [wBadGlobSchema]).1]
    rfl,
   (c7_catalog_entry_shape "t0" [wBadGlobSchema]).2 wBadGlobSchema (by decide)⟩

/-- C8: when catalog integration is enabled and the catalog fetch or parse
fails, the run still completes successfully and the output contains
exactly the locally resolved entries. -/
theorem c8_fetch_failure_nonfatal (env : Env) (e : String)
    (hs : env.schemaStore = true) (hf : env.catalogFetch = .error e)
    (st : List String × List SchemaMeta)
    (hok : processCommits (trimEndSlashes env.baseUrl) env.parse env.commits
      (env.candidates, []) = .ok st)
    (hall : st.1 = []) :
    runMain env = .ok ⟨st.2⟩ := by
  simp only [runMain]
  rw [hok]
  simp [hall, hs, fetch_schema_store, hf]

/-- Witness for C8: an environment with a failing catalog fetch still
produces the local entry. -/
theorem c8_witness :
    runMain wEnvStore = .ok ⟨[mkLocalMeta "https://u" {} 200 "a.json"]⟩ :=
  c8_fetch_failure_nonfatal wEnvStore "network unreachable" rfl rfl
    ([], [mkLocalMeta "https://u" {} 200 "a.json"]) rfl rfl

/-- C9 (implicit): every entry of a successfully produced index, local or
catalog-derived, has a non-null `updated` field: local entries carry the
resolved commit time, remote entries the run-start wall-clock time. -/
theorem c9_updated_always_some (env : Env) (idx : SchemaIndex)
    (hok : runMain env = .ok idx) (m : SchemaMeta) (hm : m ∈ idx.schemas) :
    m.updated.isSome = true := by
  simp only [runMain] at hok
  cases hp : processCommits (trimEndSlashes env.baseUrl) env.parse env.commits
      (env.candidates, []) with
  | error e2 =>
    rw [hp] at hok
    simp at hok
  | ok st =>
    rw [hp] at hok
    by_cases he : st.1.isEmpty = true
    · simp only [he, if_true] at hok
      have hloc : ∀ m2 ∈ st.2, m2.updated.isSome = true :=
        processCommits_updated (trimEndSlashes env.baseUrl) env.parse env.commits
          (env.candidates, []) st hp (by simp)
      by_cases hss : env.schemaStore = true
      · cases hcf : env.catalogFetch with
        | error e2 =>
          rw [hss, hcf] at hok
          simp [fetch_schema_store] at hok
          rw [← hok] at hm
          exact hloc m hm
        | ok cat =>
          rw [hss, hcf] at hok
          simp [fetch_schema_store] at hok
          rw [← hok] at hm
          simp at hm
          rcases hm with hm | hm
          · exact hloc m hm
          · exact storeLoop_updated env.now cat m hm
      · simp only [hss] at hok
        simp at hok
        rw [← hok] at hm
        exact hloc m hm
    · simp [he] at hok

/-- Witness for C9 at a concrete run with one local entry. -/
theorem c9_witness :
    (mkLocalMeta "https://u" {} 200 "a.json").updated.isSome = true :=
  c9_updated_always_some wEnvPlain ⟨[mkLocalMeta "https://u" {} 200 "a.json"]⟩
    rfl (mkLocalMeta "https://u" {} 200 "a.json") (by simp)

/-- C10 (implicit): the constructed local entry URL is the base URL with
all trailing `/` removed, then a single `/`, then the file's base name;
consequently appending any number of trailing slashes to the base URL
leaves the whole run's output (URLs and hence url hashes) unchanged. -/
theorem c10_base_url_normalization :
    (∀ (env : Env) (k : Nat),
      runMain { env with
        baseUrl := env.baseUrl ++ String.mk (List.replicate k '/') } =
        runMain env) ∧
    ∀ (b : String) (parse : String → Option SchemaWithExtraInfo)
      (commits : List Commit) (pending : List String)
      (st : List String × List SchemaMeta),
      (∀ q, (parse q).isSome = true) →
      processCommits (trimEndSlashes b) parse commits (pending, []) = .ok st →
      st.2.map SchemaMeta.url =
        (resolvePure commits pending).2.map
          (fun x => trimEndSlashes b ++ "/" ++ x.2.1) := by
  constructor
  · intro env k
    simp only [runMain]
    rw [trimEndSlashes_append_slashes]
  · intro b parse commits pending st hparse hok
    have hlink := processCommits_link (trimEndSlashes b) parse hparse commits pending []
    rw [hok] at hlink
    have hst : st = ((resolvePure commits pending).1,
        [] ++ (resolvePure commits pending).2.map
          (buildMetaT (trimEndSlashes b) parse)) := by
      cases hlink
      rfl
    rw [hst]
    simp [List.map_map]
    intro a a1 b1 _
    rfl

/-- Witness for C10 at a base URL carrying two trailing slashes. -/
theorem c10_witness :
    (([mkLocalMeta "https://u" {} 200 "a.json"] : List SchemaMeta).map
      SchemaMeta.url) =
      (resolvePure wCommits wPending).2.map
        (fun x => trimEndSlashes "https://u//" ++ "/" ++ x.2.1) :=
  c10_base_url_normalization.2 "https://u//" wParse wCommits wPending
    ([], [mkLocalMeta "https://u" {} 200 "a.json"]) (fun _ => rfl) rfl
